import Mathlib

/-!
Verification of the input-validation toolkit (file / URL / UUID validators).

The development shallowly embeds the three validator modules:

* `validate_url.rs` — the URL validator is a composition of three regexes
  (`PROTOTYPE_SUB_LEVEL_PATTERN`, `TOP_LEVEL_PATTERN`, `END_PATTERN`), anchored
  with `^ … $` and tested with `is_match`.  A match of the anchored
  concatenation is exactly a decomposition of the input into four consecutive
  pieces, one per group; we embed that semantics with explicit split search
  over `List Char` (`splitSearch`), with one boolean recognizer per group.
  The regex metacharacter `.` of the `regex` crate matches any character
  except a newline (the `s` flag is not set), and `$` matches only at the very
  end of the haystack (the `m` flag is not set); both facts are reflected in
  the embedding (`anyNonNewline`, whole-string decomposition).
  POSIX classes `[[:alnum:]]` / `[[:alpha:]]` are ASCII-only, matching Lean's
  `Char.isAlphanum` / `Char.isAlpha`.

* `validate_uuid.rs` — `validate_uuid` is a single anchored regex over a
  fixed-shape string; it is embedded as a sequential consumer over
  `List Char` (`hexRun`, `litRun`, `variantRun`).  `validate_file_uuid`
  recomputes `Uuid::new_v5` and compares for equality; `Uuid::new_v5` lives in
  the external `uuid` crate, so it is modelled from the spec (SHA-1 of the
  namespace bytes followed by the content bytes, truncated to 128 bits with
  the version/variant bits forced, per RFC 4122 v5).

* `validate_file.rs` — the filesystem read and the magic-number sniffing are
  performed by the external `infer` crate; `validate_file` receives its
  outcome.  We embed `validate_file` as a function of that outcome
  (an `Except` of an optional sniffed kind) plus the path string and the
  `check_extension` flag, mirroring the control flow of the source line by
  line.  The extension cross-check compiles the regex `ext$` (with `ext`
  lowercase) against the lowercased filename; every canonical extension the
  `infer` crate produces consists of ASCII letters and digits only, so the
  pattern is a literal and the check is exactly an end-anchored suffix test,
  embedded as `List.isSuffixOf` on lowercased character lists.  Rust's
  `str::to_lowercase` agrees with `Char.toLower` on ASCII characters.
-/

set_option maxHeartbeats 1000000

namespace SecLab

/-! ### Character classes of the URL regexes -/

/-- POSIX class `[[:alnum:]]` (ASCII letters and digits), used by the scheme
group of `PROTOTYPE_SUB_LEVEL_PATTERN`. -/
def alnumChar (c : Char) : Bool := c.isAlphanum

/-- Class `[[:alnum:].-]` : characters allowed in the sub-level (host) part of
`PROTOTYPE_SUB_LEVEL_PATTERN`. -/
def subLevelChar (c : Char) : Bool := c.isAlphanum || c == '.' || c == '-'

/-- Class `[[:alpha:].]` : characters allowed inside the top-level-domain
segment of `TOP_LEVEL_PATTERN`. -/
def topLevelChar (c : Char) : Bool := c.isAlpha || c == '.'

/-- The regex metacharacter `.` of the `regex` crate: any character except a
newline (the dot-matches-newline flag is never enabled in the source). -/
def anyNonNewline (c : Char) : Bool := c != '\n'

/-! ### Group recognizers

Each recognizer decides whether a list of characters is matched, in its
entirety, by the corresponding parenthesized group of the source regexes. -/

/-- Group `([[:alnum:]]+://)?` : the empty string, or one-or-more ASCII
alphanumerics followed by the three characters `://`. -/
def schemeMatch (l : List Char) : Bool :=
  l.isEmpty ||
    (decide (4 ≤ l.length) && (l.drop (l.length - 3) == [':', '/', '/']) &&
      (l.take (l.length - 3)).all alnumChar)

/-- Group `([[:alnum:].-]+)` : one-or-more host characters. -/
def hostMatch (l : List Char) : Bool := !l.isEmpty && l.all subLevelChar

/-- Group `(\.[[:alpha:].]{1,}[[:alpha:]])` (`TOP_LEVEL_PATTERN`): a dot, then
one-or-more letters/dots, then a final letter — equivalently, length at least
3, leading dot, all remaining characters letters or dots, final character a
letter. -/
def topLevelMatch (l : List Char) : Bool :=
  decide (3 ≤ l.length) && (l.head? == some '.') && (l.drop 1).all topLevelChar &&
    (match l.getLast? with
     | some c => c.isAlpha
     | none => false)

/-- Group `([/#].*)?` (`END_PATTERN`): the empty string, or `/` or `#`
followed by any characters other than newline. -/
def endMatch (l : List Char) : Bool :=
  match l with
  | [] => true
  | c :: rest => (c == '/' || c == '#') && rest.all anyNonNewline

/-- Semantics of `is_match` for the anchored concatenation
`^ scheme host TOP end $`: the input decomposes into four consecutive pieces,
one matched by each group.  `tl` is the recognizer substituted for the
top-level group (the generic `TOP_LEVEL_PATTERN`, or the whitelist
alternation).  The decomposition is searched over all split points. -/
def splitSearch (tl : List Char → Bool) (l : List Char) : Bool :=
  (List.range (l.length + 1)).any (fun i =>
    (List.range (l.length + 1)).any (fun j =>
      (List.range (l.length + 1)).any (fun k =>
        decide (i ≤ j) && decide (j ≤ k) &&
        schemeMatch (l.take i) &&
        hostMatch ((l.drop i).take (j - i)) &&
        tl ((l.drop j).take (k - j)) &&
        endMatch (l.drop k))))

/-! ### Whitelist alternation

The source builds the whitelist regex as `(\e₁|\e₂|…)` where each `eᵢ` is a
whitelist entry: the entry is inserted verbatim with a single `\` prepended,
so only the entry's FIRST character is escaped; any further `.` inside the
entry keeps its metacharacter meaning (any character except newline). -/

/-- One unescaped pattern character of a whitelist entry: `.` is the
wildcard, every other character is a literal. -/
def rawPatternChar (p c : Char) : Bool :=
  if p == '.' then anyNonNewline c else p == c

/-- Matching the unescaped remainder of a whitelist entry against a piece of
the input, character by character. -/
def entryTailMatch : List Char → List Char → Bool
  | [], [] => true
  | [], _ :: _ => false
  | _ :: _, [] => false
  | p :: ps, c :: cs => rawPatternChar p c && entryTailMatch ps cs

/-- Matching the regex `\e` for a whitelist entry `e`: the first character is
escaped (hence literal), the remaining characters keep their regex meaning. -/
def entryMatch (e l : List Char) : Bool :=
  match e, l with
  | [], l => l.isEmpty
  | _ :: _, [] => false
  | p :: ps, c :: cs => p == c && entryTailMatch ps cs

/-- The alternation `(\e₁|\e₂|…)` over the validated whitelist entries. -/
def whitelistAlt (wl : List (List Char)) (t : List Char) : Bool :=
  wl.any (fun e => entryMatch e t)

/-- The source's whitelist loop: each entry is checked against the anchored
`^TOP_LEVEL_PATTERN$` regex and collected in order; the first invalid entry
aborts the call with the invalid-entry error. -/
def validateEntries : List (List Char) → Except String (List (List Char))
  | [] => Except.ok []
  | e :: rest =>
    if topLevelMatch e then
      match validateEntries rest with
      | Except.ok es => Except.ok (e :: es)
      | Except.error msg => Except.error msg
    else Except.error "Invalid top level domain in white list."

/-- Embedding of `validate_url` (validate_url.rs).  Without a whitelist the
input is tested against the anchored concatenation of the three pattern
constants; with a whitelist, the emptiness check and the per-entry validation
run first, then the top-level group is replaced by the alternation of the
entries. -/
def validate_url (url : String) (topLevelWhitelist : Option (List String)) :
    Except String Bool :=
  match topLevelWhitelist with
  | none => Except.ok (splitSearch topLevelMatch url.data)
  | some whitelist =>
    if whitelist.isEmpty then Except.error "The white list is empty."
    else
      match validateEntries (whitelist.map String.data) with
      | Except.error msg => Except.error msg
      | Except.ok es => Except.ok (splitSearch (whitelistAlt es) url.data)

/-! ### Spec-side URL grammar

These predicates follow the wording of the specification (claim C6 and the
whitelist-exactness sentences), NOT the source; they exist to be compared
with the source-derived recognizers above. -/

/-- Spec wording: "an optional scheme of one-or-more alphanumeric characters
followed by `://`". -/
def urlSpecScheme (a : List Char) : Prop :=
  a = [] ∨ ∃ w, w ≠ [] ∧ (∀ c ∈ w, c.isAlphanum = true) ∧ a = w ++ [':', '/', '/']

/-- Spec wording: "a non-empty host part of alphanumeric characters, dots and
hyphens only". -/
def urlSpecHost (b : List Char) : Prop :=
  b ≠ [] ∧ ∀ c ∈ b, (c.isAlphanum = true ∨ c = '.' ∨ c = '-')

/-- Spec wording: "a top-level domain consisting of one dot followed by
one-or-more letters and dots with the whole segment at least 3 characters
long and ending in a letter". -/
def urlSpecTld (t : List Char) : Prop :=
  ∃ mid last, t = '.' :: (mid ++ [last]) ∧ mid ≠ [] ∧
    (∀ c ∈ mid, c.isAlpha = true ∨ c = '.') ∧ last.isAlpha = true

/-- Claim C6 wording for the trailing part: "optionally a `/` or `#` followed
by arbitrary characters". -/
def urlSpecTailFree (d : List Char) : Prop :=
  d = [] ∨ ∃ c rest, d = c :: rest ∧ (c = '/' ∨ c = '#')

/-- Amended trailing part: `/` or `#` followed by arbitrary characters none of
which is a newline (the `regex` crate's `.` never matches a newline). -/
def urlSpecTailNoNewline (d : List Char) : Prop :=
  d = [] ∨ ∃ c rest, d = c :: rest ∧ (c = '/' ∨ c = '#') ∧ ∀ x ∈ rest, x ≠ '\n'

/-- The whole-URL grammar exactly as claim C6 states it (trailing part
unconstrained after `/` or `#`). -/
def urlGrammarClaimed (s : String) : Prop :=
  ∃ a b t d, s.data = a ++ b ++ t ++ d ∧ urlSpecScheme a ∧ urlSpecHost b ∧
    urlSpecTld t ∧ urlSpecTailFree d

/-- The whole-URL grammar with the newline restriction on the trailing part. -/
def urlGrammarAmended (s : String) : Prop :=
  ∃ a b t d, s.data = a ++ b ++ t ++ d ∧ urlSpecScheme a ∧ urlSpecHost b ∧
    urlSpecTld t ∧ urlSpecTailNoNewline d

/-- Spec-side whitelist matching: a whitelist entry is treated as a LITERAL
string, so the top-level portion must be character-for-character equal to
some entry (claim C1's wording). -/
def literalWhitelistAlt (wl : List (List Char)) (t : List Char) : Bool :=
  wl.any (fun e => e == t)

/-- Spec-side whitelist-mode URL match: some decomposition of the input whose
top-level portion is character-for-character equal to a whitelist entry. -/
def literalWhitelistMatch (wl : List (List Char)) (s : List Char) : Bool :=
  splitSearch (literalWhitelistAlt wl) s

/-! ### UUID format validator -/

/-- Class `[0-9a-fA-F]` of the UUID regex. -/
def hexChar (c : Char) : Bool :=
  ('0' ≤ c && c ≤ '9') || ('a' ≤ c && c ≤ 'f') || ('A' ≤ c && c ≤ 'F')

/-- Consume exactly `n` hex characters (`[0-9a-fA-F]{n}`), returning the rest
of the input on success. -/
def hexRun : Nat → List Char → Option (List Char)
  | 0, l => some l
  | _ + 1, [] => none
  | n + 1, c :: l => if hexChar c then hexRun n l else none

/-- Consume one literal character. -/
def litRun (ch : Char) : List Char → Option (List Char)
  | [] => none
  | c :: l => if c = ch then some l else none

/-- Consume one character of the variant class `[89abAB]`. -/
def variantRun : List Char → Option (List Char)
  | [] => none
  | c :: l =>
    if c = '8' ∨ c = '9' ∨ c = 'a' ∨ c = 'b' ∨ c = 'A' ∨ c = 'B' then some l
    else none

/-- Success test of the sequential consumer: the whole input was consumed. -/
def consumedAll (x : Option (List Char)) : Bool :=
  match x with
  | some [] => true
  | _ => false

/-- Embedding of `validate_uuid` (validate_uuid.rs): the anchored regex
`^[0-9a-fA-F]{8}-[0-9a-fA-F]{4}-[5][0-9a-fA-F]{3}-[89abAB][0-9a-fA-F]{3}-[0-9a-fA-F]{12}$`
consumed left to right; the match succeeds exactly when the whole input is
consumed. -/
def validate_uuid (s : String) : Bool :=
  consumedAll ((((((((((hexRun 8 s.data).bind (litRun '-')).bind (hexRun 4)).bind
      (litRun '-')).bind (litRun '5')).bind (hexRun 3)).bind
      (litRun '-')).bind variantRun).bind (hexRun 3)).bind
      (litRun '-') |>.bind (hexRun 12))

/-- Spec-side wording of claim C4: canonical 8-4-4-4-12 hyphenated hexadecimal
layout, hex digits in either case, version nibble literally `5`, variant
nibble one of `8`, `9`, `a`, `b` case-insensitively. -/
def uuidSpecLayout (s : String) : Prop :=
  ∃ g1 g2 g3 g4 g5 : List Char,
    s.data = g1 ++ '-' :: (g2 ++ '-' :: (g3 ++ '-' :: (g4 ++ '-' :: g5))) ∧
    g1.length = 8 ∧ g2.length = 4 ∧ g3.length = 4 ∧ g4.length = 4 ∧
    g5.length = 12 ∧
    (g1 ++ g2 ++ g3 ++ g4 ++ g5).all hexChar = true ∧
    g3.head? = some '5' ∧
    (∃ c, g4.head? = some c ∧
      (c = '8' ∨ c = '9' ∨ c = 'a' ∨ c = 'b' ∨ c = 'A' ∨ c = 'B'))

/-! ### UUID-content binder (SHA-1 and version-5 derivation)

Modelled from the spec: `Uuid::new_v5` belongs to the external `uuid` crate
(not part of this repository's sources); the spec describes it as the RFC
4122 version-5 name-based derivation — hash the namespace bytes concatenated
with the content bytes (SHA-1), truncate to 128 bits, force the version
nibble to 5 and the variant to RFC 4122.  Bytes are `Nat` values below 256,
32-bit words are `Nat` values reduced modulo `2 ^ 32`. -/

/-- The 32-bit word modulus. -/
def wordMod : Nat := 2 ^ 32

/-- Rotate a 32-bit word left by `n` bits.  For `x < 2 ^ 32` the two summands
occupy disjoint bit ranges, so the sum equals the bitwise OR used by the
machine rotate. -/
def rotl32 (n x : Nat) : Nat :=
  ((x % wordMod) * 2 ^ n) % wordMod + (x % wordMod) / 2 ^ (32 - n)

/-- SHA-1 round constants. -/
def sha1K (t : Nat) : Nat :=
  if t < 20 then 0x5A827999
  else if t < 40 then 0x6ED9EBA1
  else if t < 60 then 0x8F1BBCDC
  else 0xCA62C1D6

/-- SHA-1 round functions (Ch, Parity, Maj, Parity); NOT is XOR with the
32-bit mask. -/
def sha1F (t b c d : Nat) : Nat :=
  if t < 20 then (b &&& c) ||| ((b ^^^ 0xFFFFFFFF) &&& d)
  else if t < 40 then b ^^^ c ^^^ d
  else if t < 60 then (b &&& c) ||| (b &&& d) ||| (c &&& d)
  else b ^^^ c ^^^ d

/-- Big-endian bytes of a value, fixed width. -/
def beBytes : Nat → Nat → List Nat
  | 0, _ => []
  | n + 1, v => beBytes n (v / 256) ++ [v % 256]

/-- Pack bytes into 32-bit big-endian words, four at a time. -/
def toWords : List Nat → List Nat
  | b0 :: b1 :: b2 :: b3 :: rest =>
    (((b0 * 256 + b1) * 256 + b2) * 256 + b3) :: toWords rest
  | _ => []

/-- Extend the 16 message-schedule words to 80 (fuel-driven). -/
def extendWords : List Nat → Nat → List Nat
  | w, 0 => w
  | w, fuel + 1 =>
    if 80 ≤ w.length then w
    else
      extendWords (w ++ [rotl32 1 ((w.getD (w.length - 3) 0) ^^^
        (w.getD (w.length - 8) 0) ^^^ (w.getD (w.length - 14) 0) ^^^
        (w.getD (w.length - 16) 0))]) fuel

/-- One SHA-1 round on the five-word state. -/
def sha1Step (w : List Nat) (st : List Nat) (t : Nat) : List Nat :=
  match st with
  | [a, b, c, d, e] =>
    [(rotl32 5 a + sha1F t b c d + e + sha1K t + w.getD t 0) % wordMod,
      a, rotl32 30 b, c, d]
  | other => other

/-- SHA-1 initial state. -/
def sha1H0 : List Nat := [0x67452301, 0xEFCDAB89, 0x98BADCFE, 0x10325476, 0xC3D2E1F0]

/-- Compress one 64-byte block into the running state. -/
def sha1Block (h : List Nat) (block : List Nat) : List Nat :=
  List.zipWith (fun x y => (x + y) % wordMod) h
    ((List.range 80).foldl (sha1Step (extendWords (toWords block) 64)) h)

/-- Cut a byte list into 64-byte chunks (fuel-driven). -/
def chunksOf64 : List Nat → Nat → List (List Nat)
  | _, 0 => []
  | l, fuel + 1 => if l.isEmpty then [] else l.take 64 :: chunksOf64 (l.drop 64) fuel

/-- SHA-1 padding: `0x80`, zeros to 56 mod 64, then the 64-bit big-endian bit
length. -/
def sha1Pad (msg : List Nat) : List Nat :=
  msg ++ [0x80] ++ List.replicate ((64 + 55 - (msg.length % 64)) % 64) 0 ++
    beBytes 8 (msg.length * 8)

/-- SHA-1 of a byte list, as 20 bytes. -/
def sha1 (msg : List Nat) : List Nat :=
  (((chunksOf64 (sha1Pad msg) (sha1Pad msg).length).foldl sha1Block sha1H0).map
    (beBytes 4)).flatten

/-- A 128-bit UUID as its 16 bytes; equality is bit-for-bit equality. -/
structure Uuid where
  bytes : List Nat
deriving DecidableEq

/-- Modelled from the spec: RFC 4122 version-5 derivation (`Uuid::new_v5` of
the external `uuid` crate): SHA-1 of namespace bytes ++ content bytes,
truncated to 16 bytes, version nibble forced to 5, variant forced to
RFC 4122 (`10xxxxxx`). -/
def new_v5 (ns : Uuid) (name : List Nat) : Uuid :=
  Uuid.mk (((sha1 (ns.bytes ++ name)).take 6) ++
    [(sha1 (ns.bytes ++ name)).getD 6 0 % 16 + 0x50] ++
    [(sha1 (ns.bytes ++ name)).getD 7 0] ++
    [(sha1 (ns.bytes ++ name)).getD 8 0 % 64 + 0x80] ++
    (((sha1 (ns.bytes ++ name)).drop 9).take 7))

/-- Embedding of `validate_file_uuid` (validate_uuid.rs): recompute the
version-5 UUID and compare bit-for-bit with the candidate. -/
def validate_file_uuid (ns : Uuid) (file : List Nat) (uuid : Uuid) : Bool :=
  new_v5 ns file == uuid

/-! ### File content validator -/

/-- The matcher categories of the `infer` crate (`infer::MatcherType`). -/
inductive MatcherType
  | App | Archive | Audio | Book | Custom | Doc | Font | Image | Text | Video
deriving DecidableEq

/-- A sniffed file kind (`infer::Type`), as `validate_file` consumes it: its
canonical extension and its matcher category. -/
structure FileKind where
  extension : String
  matcherType : MatcherType
deriving DecidableEq

/-- The source extension check: the canonical extension is lowercased, the
regex `ext$` is compiled and tested against the lowercased filename.  Every
canonical extension produced by the `infer` crate contains only ASCII letters
and digits, so the pattern is literal and the anchored match is exactly an
end-of-string suffix test on the lowercased strings. -/
def extensionCheck (ext fname : List Char) : Bool :=
  (ext.map Char.toLower).isSuffixOf (fname.map Char.toLower)

/-- Embedding of `validate_file` (validate_file.rs).  The filesystem access
and the magic-number sniffing (`infer::get_from_path`) are external; their
outcome is the first argument: an I/O error (propagated by `?`), `none` when
no signature matched, or the sniffed kind.  The rest mirrors the source: with
`check_extension` set, a failed extension check returns `Ok(0)`; otherwise
the matcher category maps to 1 (image), 2 (video) or 0 (anything else). -/
def validate_file (sniffed : Except String (Option FileKind)) (filename : String)
    (checkExtension : Bool) : Except String Nat :=
  match sniffed with
  | Except.error e => Except.error e
  | Except.ok none => Except.error "File type is unknown."
  | Except.ok (some kind) =>
    if checkExtension && !(extensionCheck kind.extension.data filename.data) then
      Except.ok 0
    else
      match kind.matcherType with
      | MatcherType.Image => Except.ok 1
      | MatcherType.Video => Except.ok 2
      | _ => Except.ok 0

/-! ## Helper lemmas: the split search is the existence of a decomposition -/

theorem splitSearch_iff (tl : List Char → Bool) (l : List Char) :
    splitSearch tl l = true ↔
      ∃ a b c d, l = a ++ b ++ c ++ d ∧ schemeMatch a = true ∧ hostMatch b = true ∧
        tl c = true ∧ endMatch d = true := by
  unfold splitSearch
  simp only [List.any_eq_true, List.mem_range, Bool.and_eq_true, decide_eq_true_eq]
  constructor
  · rintro ⟨i, _, j, _, k, _, ⟨⟨⟨⟨hij, hjk⟩, hs⟩, hh⟩, ht⟩, he⟩
    refine ⟨l.take i, (l.drop i).take (j - i), (l.drop j).take (k - j), l.drop k,
      ?_, hs, hh, ht, he⟩
    have h1 : l.take i ++ (l.drop i).take (j - i) = l.take j := by
      rw [← List.take_add]; congr 1; omega
    have h2 : l.take j ++ (l.drop j).take (k - j) = l.take k := by
      rw [← List.take_add]; congr 1; omega
    calc l = l.take k ++ l.drop k := (List.take_append_drop k l).symm
      _ = (l.take j ++ (l.drop j).take (k - j)) ++ l.drop k := by rw [h2]
      _ = ((l.take i ++ (l.drop i).take (j - i)) ++ (l.drop j).take (k - j)) ++ l.drop k := by
          rw [h1]
  · rintro ⟨a, b, c, d, rfl, hs, hh, ht, he⟩
    have hab : (a ++ b ++ c ++ d).take a.length = a := by
      rw [List.append_assoc, List.append_assoc, List.take_left]
    have hdropa : (a ++ b ++ c ++ d).drop a.length = b ++ c ++ d := by
      rw [List.append_assoc, List.append_assoc, List.drop_left, ← List.append_assoc]
    have hdropab : (a ++ b ++ c ++ d).drop (a.length + b.length) = c ++ d := by
      rw [List.append_assoc, List.append_assoc, ← List.length_append,
        ← List.append_assoc, List.drop_left]
    refine ⟨a.length, ?_, a.length + b.length, ?_, a.length + b.length + c.length, ?_,
      ⟨⟨⟨⟨?_, ?_⟩, ?_⟩, ?_⟩, ?_⟩, ?_⟩
    · simp [List.length_append]; omega
    · simp [List.length_append]; omega
    · simp [List.length_append]; omega
    · omega
    · omega
    · rwa [hab]
    · rwa [hdropa, Nat.add_sub_cancel_left, List.append_assoc, List.take_left]
    · rwa [hdropab, Nat.add_sub_cancel_left, List.take_left]
    · have : a.length + b.length + c.length = (a ++ b ++ c).length := by
        rw [List.length_append, List.length_append]
      rw [this]
      have : a ++ b ++ c ++ d = (a ++ b ++ c) ++ d := by simp [List.append_assoc]
      rwa [this, List.drop_left]

/-! ## Helper lemmas: group recognizers versus the spec wording -/

theorem schemeMatch_iff (a : List Char) : schemeMatch a = true ↔ urlSpecScheme a := by
  unfold schemeMatch urlSpecScheme
  constructor
  · intro h
    rcases (Bool.or_eq_true _ _).mp h with h1 | h2
    · exact Or.inl (List.isEmpty_iff.mp h1)
    · right
      simp only [Bool.and_eq_true, decide_eq_true_eq, beq_iff_eq] at h2
      obtain ⟨⟨hlen, hdrop⟩, hall⟩ := h2
      refine ⟨a.take (a.length - 3), ?_, ?_, ?_⟩
      · apply List.ne_nil_of_length_pos
        rw [List.length_take]; omega
      · intro c hc
        exact List.all_eq_true.mp hall c hc
      · conv_lhs => rw [← List.take_append_drop (a.length - 3) a]
        rw [hdrop]
  · rintro (rfl | ⟨w, hw, hall, rfl⟩)
    · rfl
    · apply (Bool.or_eq_true _ _).mpr
      right
      have hwlen : 1 ≤ w.length := by
        cases w with
        | nil => exact absurd rfl hw
        | cons x xs => simp
      have hlen : (w ++ [':', '/', '/']).length = w.length + 3 := by
        simp [List.length_append]
      simp only [Bool.and_eq_true, decide_eq_true_eq, beq_iff_eq, hlen]
      refine ⟨⟨by omega, ?_⟩, ?_⟩
      · have : w.length + 3 - 3 = w.length := by omega
        rw [this, List.drop_left]
      · have : w.length + 3 - 3 = w.length := by omega
        rw [this, List.take_left, List.all_eq_true]
        exact hall

theorem hostMatch_iff (b : List Char) : hostMatch b = true ↔ urlSpecHost b := by
  unfold hostMatch urlSpecHost subLevelChar
  simp only [Bool.and_eq_true, Bool.not_eq_true', List.all_eq_true, Bool.or_eq_true,
    beq_iff_eq, or_assoc]
  constructor
  · rintro ⟨h1, h2⟩
    refine ⟨?_, h2⟩
    intro hb
    rw [hb] at h1
    simp at h1
  · rintro ⟨h1, h2⟩
    refine ⟨?_, h2⟩
    cases b with
    | nil => exact absurd rfl h1
    | cons x xs => rfl

theorem topLevelMatch_iff (t : List Char) : topLevelMatch t = true ↔ urlSpecTld t := by
  unfold topLevelMatch urlSpecTld topLevelChar
  constructor
  · intro h
    simp only [Bool.and_eq_true, decide_eq_true_eq, beq_iff_eq] at h
    obtain ⟨⟨⟨hlen, hhead⟩, hall⟩, hlast⟩ := h
    have hne : t ≠ [] := by
      intro ht; rw [ht] at hlen; simp at hlen
    obtain ⟨rest, hrest⟩ : ∃ rest, t = '.' :: rest := by
      cases t with
      | nil => exact absurd rfl hne
      | cons x xs =>
        simp only [List.head?_cons, Option.some.injEq] at hhead
        exact ⟨xs, by rw [hhead]⟩
    subst hrest
    have hrne : rest ≠ [] := by
      intro hr; rw [hr] at hlen; simp at hlen
    refine ⟨rest.dropLast, rest.getLast hrne, ?_, ?_, ?_, ?_⟩
    · rw [List.dropLast_append_getLast hrne]
    · apply List.ne_nil_of_length_pos
      rw [List.length_dropLast]
      simp only [List.length_cons] at hlen
      omega
    · intro c hc
      have hcr : c ∈ rest := List.dropLast_subset rest hc
      have := List.all_eq_true.mp hall c (by simpa using hcr)
      rcases (Bool.or_eq_true _ _).mp this with h | h
      · exact Or.inl h
      · exact Or.inr (beq_iff_eq.mp h)
    · have hg : ('.' :: rest).getLast? = some (rest.getLast hrne) := by
        conv_lhs => rw [← List.dropLast_append_getLast hrne]
        rw [← List.cons_append, List.getLast?_concat]
      rw [hg] at hlast
      exact hlast
  · rintro ⟨mid, last, rfl, hmid, hall, hlast⟩
    simp only [Bool.and_eq_true, decide_eq_true_eq, beq_iff_eq]
    have hmlen : 1 ≤ mid.length := by
      cases mid with
      | nil => exact absurd rfl hmid
      | cons x xs => simp
    refine ⟨⟨⟨?_, ?_⟩, ?_⟩, ?_⟩
    · simp [List.length_append]; omega
    · rfl
    · rw [List.all_eq_true]
      intro c hc
      simp only [List.drop_one, List.tail_cons] at hc
      rcases List.mem_append.mp hc with h | h
      · rcases hall c h with h' | h'
        · exact (Bool.or_eq_true _ _).mpr (Or.inl h')
        · exact (Bool.or_eq_true _ _).mpr (Or.inr (beq_iff_eq.mpr h'))
      · simp only [List.mem_singleton] at h
        subst h
        exact (Bool.or_eq_true _ _).mpr (Or.inl hlast)
    · rw [← List.cons_append, List.getLast?_concat]
      exact hlast

theorem endMatch_iff (d : List Char) : endMatch d = true ↔ urlSpecTailNoNewline d := by
  unfold endMatch urlSpecTailNoNewline anyNonNewline
  cases d with
  | nil => simp
  | cons c rest =>
    simp only [Bool.and_eq_true, Bool.or_eq_true, beq_iff_eq, List.all_eq_true,
      bne_iff_ne]
    constructor
    · rintro ⟨h1, h2⟩
      exact Or.inr ⟨c, rest, rfl, h1, h2⟩
    · rintro (h | ⟨c', rest', heq, h1, h2⟩)
      · exact absurd h (List.cons_ne_nil c rest)
      · injection heq with hc hr
        subst hc
        subst hr
        exact ⟨h1, h2⟩

/-- Whole bridge for the no-whitelist mode: the source's anchored regex match
succeeds exactly on the strings of the (newline-amended) spec grammar. -/
theorem validate_url_none_iff (s : String) :
    validate_url s none = Except.ok true ↔ urlGrammarAmended s := by
  unfold validate_url urlGrammarAmended
  rw [show (Except.ok (splitSearch topLevelMatch s.data) =
      (Except.ok true : Except String Bool)) ↔
      splitSearch topLevelMatch s.data = true by
    constructor
    · intro h; injection h
    · intro h; rw [h]]
  rw [splitSearch_iff]
  constructor
  · rintro ⟨a, b, c, d, hsplit, hs, hh, ht, he⟩
    exact ⟨a, b, c, d, hsplit, (schemeMatch_iff a).mp hs, (hostMatch_iff b).mp hh,
      (topLevelMatch_iff c).mp ht, (endMatch_iff d).mp he⟩
  · rintro ⟨a, b, c, d, hsplit, hs, hh, ht, he⟩
    exact ⟨a, b, c, d, hsplit, (schemeMatch_iff a).mpr hs, (hostMatch_iff b).mpr hh,
      (topLevelMatch_iff c).mpr ht, (endMatch_iff d).mpr he⟩

/-! ## Helper lemmas: whitelist entries as patterns versus as literals -/

theorem rawPatternChar_self (p : Char) : rawPatternChar p p = true := by
  unfold rawPatternChar anyNonNewline
  by_cases h : p = '.'
  · subst h; rfl
  · rw [if_neg (by simpa using h)]
    exact beq_self_eq_true p

theorem entryTailMatch_self (ps : List Char) : entryTailMatch ps ps = true := by
  induction ps with
  | nil => rfl
  | cons p ps ih =>
    unfold entryTailMatch
    rw [rawPatternChar_self, ih]
    rfl

theorem entryMatch_self (e : List Char) : entryMatch e e = true := by
  cases e with
  | nil => rfl
  | cons p ps =>
    simp only [entryMatch, beq_self_eq_true, entryTailMatch_self, Bool.and_self]

theorem entryTailMatch_eq_of_nodot (ps cs : List Char)
    (hnd : ∀ c ∈ ps, c ≠ '.') (h : entryTailMatch ps cs = true) : ps = cs := by
  induction ps generalizing cs with
  | nil =>
    cases cs with
    | nil => rfl
    | cons c cs => simp [entryTailMatch] at h
  | cons p ps ih =>
    cases cs with
    | nil => simp [entryTailMatch] at h
    | cons c cs =>
      unfold entryTailMatch at h
      rw [Bool.and_eq_true] at h
      obtain ⟨h1, h2⟩ := h
      have hp : p ≠ '.' := hnd p (List.mem_cons_self p ps)
      unfold rawPatternChar at h1
      rw [if_neg (by simpa using hp)] at h1
      have : p = c := beq_iff_eq.mp h1
      subst this
      rw [ih cs (fun c hc => hnd c (List.mem_cons_of_mem p hc)) h2]

/-- With no dot after the leading (escaped) character, a whitelist entry
matches exactly itself. -/
theorem entryMatch_eq_of_nodot (e t : List Char)
    (hnd : ∀ c ∈ e.tail, c ≠ '.') : entryMatch e t = (e == t) := by
  cases h1 : entryMatch e t with
  | true =>
    cases e with
    | nil =>
      cases t with
      | nil => rfl
      | cons c cs => simp [entryMatch] at h1
    | cons p ps =>
      cases t with
      | nil => simp [entryMatch] at h1
      | cons c cs =>
        unfold entryMatch at h1
        rw [Bool.and_eq_true] at h1
        obtain ⟨hp, ht⟩ := h1
        have : p = c := beq_iff_eq.mp hp
        subst this
        have : ps = cs := entryTailMatch_eq_of_nodot ps cs (by simpa using hnd) ht
        subst this
        exact (beq_self_eq_true _).symm
  | false =>
    cases h2 : e == t with
    | false => rfl
    | true =>
      have : e = t := beq_iff_eq.mp h2
      subst this
      rw [entryMatch_self e] at h1
      exact h1.symm

theorem whitelistAlt_eq_literal (wl : List (List Char))
    (hnd : ∀ e ∈ wl, ∀ c ∈ e.tail, c ≠ '.') (t : List Char) :
    whitelistAlt wl t = literalWhitelistAlt wl t := by
  unfold whitelistAlt literalWhitelistAlt
  induction wl with
  | nil => rfl
  | cons e es ih =>
    simp only [List.any_cons]
    rw [entryMatch_eq_of_nodot e t (hnd e (List.mem_cons_self e es)),
      ih (fun e' he' => hnd e' (List.mem_cons_of_mem e he'))]

/-! ## Helper lemmas: the whitelist validation loop -/

theorem validateEntries_ok (wl : List (List Char))
    (h : ∀ e ∈ wl, topLevelMatch e = true) : validateEntries wl = Except.ok wl := by
  induction wl with
  | nil => rfl
  | cons e es ih =>
    unfold validateEntries
    rw [if_pos (h e (List.mem_cons_self e es)),
      ih (fun e' he' => h e' (List.mem_cons_of_mem e he'))]

theorem validateEntries_error (wl : List (List Char))
    (h : ∃ e ∈ wl, topLevelMatch e = false) :
    validateEntries wl = Except.error "Invalid top level domain in white list." := by
  induction wl with
  | nil => obtain ⟨e, he, _⟩ := h; simp at he
  | cons e es ih =>
    obtain ⟨e', he', hbad⟩ := h
    unfold validateEntries
    by_cases hv : topLevelMatch e = true
    · rw [if_pos hv]
      have : e' ∈ es := by
        rcases List.mem_cons.mp he' with rfl | hmem
        · rw [hv] at hbad; cases hbad
        · exact hmem
      rw [ih ⟨e', this, hbad⟩]
    · rw [if_neg hv]

/-! ## Helper lemmas: the UUID consumer versus the layout decomposition -/

theorem consumedAll_eq_true (x : Option (List Char)) :
    consumedAll x = true ↔ x = some [] := by
  unfold consumedAll
  cases x with
  | none => simp
  | some l => cases l <;> simp

theorem hexRun_eq_some (n : Nat) (l r : List Char) :
    hexRun n l = some r ↔
      ∃ g, g.length = n ∧ g.all hexChar = true ∧ l = g ++ r := by
  induction n generalizing l with
  | zero =>
    unfold hexRun
    constructor
    · intro h
      injection h with h
      exact ⟨[], rfl, rfl, by rw [h]; rfl⟩
    · rintro ⟨g, hg, _, rfl⟩
      rw [List.eq_nil_of_length_eq_zero hg, List.nil_append]
  | succ n ih =>
    cases l with
    | nil =>
      unfold hexRun
      constructor
      · intro h; cases h
      · rintro ⟨g, hg, _, habs⟩
        cases g with
        | nil => cases hg
        | cons c g => cases habs
    | cons c l =>
      unfold hexRun
      by_cases hc : hexChar c = true
      · rw [if_pos hc, ih]
        constructor
        · rintro ⟨g, hg, hall, rfl⟩
          exact ⟨c :: g, by simp [hg], by simp [hc, hall], rfl⟩
        · rintro ⟨g, hg, hall, heq⟩
          cases g with
          | nil => cases hg
          | cons c' g =>
            injection heq with h1 h2
            subst h1
            simp only [List.all_cons, Bool.and_eq_true] at hall
            exact ⟨g, by simpa using hg, hall.2, h2⟩
      · rw [if_neg hc]
        constructor
        · intro h; cases h
        · rintro ⟨g, hg, hall, heq⟩
          cases g with
          | nil => cases hg
          | cons c' g =>
            injection heq with h1 h2
            subst h1
            simp only [List.all_cons, Bool.and_eq_true] at hall
            exact absurd hall.1 hc

theorem litRun_eq_some (ch : Char) (l r : List Char) :
    litRun ch l = some r ↔ l = ch :: r := by
  cases l with
  | nil => simp [litRun]
  | cons c l =>
    simp only [litRun]
    by_cases hc : c = ch
    · subst hc
      simp
    · rw [if_neg hc]
      simp [hc]

theorem variantRun_eq_some (l r : List Char) :
    variantRun l = some r ↔
      ∃ c, l = c :: r ∧
        (c = '8' ∨ c = '9' ∨ c = 'a' ∨ c = 'b' ∨ c = 'A' ∨ c = 'B') := by
  cases l with
  | nil => simp [variantRun]
  | cons c l =>
    simp only [variantRun]
    by_cases hc : c = '8' ∨ c = '9' ∨ c = 'a' ∨ c = 'b' ∨ c = 'A' ∨ c = 'B'
    · rw [if_pos hc]
      constructor
      · intro h
        injection h with h
        exact ⟨c, by rw [h], hc⟩
      · rintro ⟨c', heq, _⟩
        injection heq with _ h2
        rw [h2]
    · rw [if_neg hc]
      constructor
      · intro h; cases h
      · rintro ⟨c', heq, hc'⟩
        injection heq with h1 _
        subst h1
        exact absurd hc' hc

/-- The UUID regex accepts exactly the canonical 8-4-4-4-12 layout with
version nibble `5` and variant nibble in `[89abAB]`. -/
theorem validate_uuid_iff (s : String) : validate_uuid s = true ↔ uuidSpecLayout s := by
  unfold validate_uuid uuidSpecLayout
  rw [consumedAll_eq_true]
  simp only [Option.bind_eq_some]
  constructor
  · intro h
    obtain ⟨a10, h', h11⟩ := h
    obtain ⟨a9, h', h10⟩ := h'
    obtain ⟨a8, h', h9⟩ := h'
    obtain ⟨a7, h', h8⟩ := h'
    obtain ⟨a6, h', h7⟩ := h'
    obtain ⟨a5, h', h6⟩ := h'
    obtain ⟨a4, h', h5⟩ := h'
    obtain ⟨a3, h', h4⟩ := h'
    obtain ⟨a2, h', h3⟩ := h'
    obtain ⟨a1, h1, h2⟩ := h'
    obtain ⟨g1, hg1len, hg1hex, hsd⟩ := (hexRun_eq_some 8 _ _).mp h1
    have ha1 := (litRun_eq_some '-' _ _).mp h2
    obtain ⟨g2, hg2len, hg2hex, ha2⟩ := (hexRun_eq_some 4 _ _).mp h3
    have ha3 := (litRun_eq_some '-' _ _).mp h4
    have ha4 := (litRun_eq_some '5' _ _).mp h5
    obtain ⟨g3t, hg3len, hg3hex, ha5⟩ := (hexRun_eq_some 3 _ _).mp h6
    have ha6 := (litRun_eq_some '-' _ _).mp h7
    obtain ⟨vc, ha7, hvc⟩ := (variantRun_eq_some _ _).mp h8
    obtain ⟨g4t, hg4len, hg4hex, ha8⟩ := (hexRun_eq_some 3 _ _).mp h9
    have ha9 := (litRun_eq_some '-' _ _).mp h10
    obtain ⟨g5, hg5len, hg5hex, ha10⟩ := (hexRun_eq_some 12 _ _).mp h11
    refine ⟨g1, g2, '5' :: g3t, vc :: g4t, g5, ?_, hg1len, hg2len,
      by simp [hg3len], by simp [hg4len], hg5len, ?_, rfl, ⟨vc, rfl, hvc⟩⟩
    · rw [hsd, ha1, ha2, ha3, ha4, ha5, ha6, ha7, ha8, ha9, ha10]
      simp [List.cons_append, List.append_assoc]
    · have hv5 : hexChar '5' = true := by decide
      have hvch : hexChar vc = true := by
        rcases hvc with rfl | rfl | rfl | rfl | rfl | rfl <;> decide
      simp [List.all_append, List.all_cons, hg1hex, hg2hex, hg3hex, hg4hex,
        hg5hex, hv5, hvch]
  · rintro ⟨g1, g2, g3, g4, g5, hsd, h1len, h2len, h3len, h4len, h5len, hhex,
      hhead3, vc, hhead4, hvc⟩
    obtain ⟨g3t, rfl⟩ : ∃ g3t, g3 = '5' :: g3t := by
      cases g3 with
      | nil => simp at hhead3
      | cons c3 t =>
        simp only [List.head?_cons, Option.some.injEq] at hhead3
        exact ⟨t, by rw [hhead3]⟩
    obtain ⟨g4t, rfl⟩ : ∃ g4t, g4 = vc :: g4t := by
      cases g4 with
      | nil => simp at hhead4
      | cons c4 t =>
        simp only [List.head?_cons, Option.some.injEq] at hhead4
        exact ⟨t, by rw [hhead4]⟩
    simp only [List.all_append, List.all_cons, Bool.and_eq_true] at hhex
    obtain ⟨⟨⟨⟨hx1, hx2⟩, hx5', hx3⟩, hxv, hx4⟩, hx5⟩ := hhex
    have hg3tlen : g3t.length = 3 := by simpa using h3len
    have hg4tlen : g4t.length = 3 := by simpa using h4len
    refine ⟨g5, ⟨'-' :: g5, ⟨g4t ++ '-' :: g5, ⟨vc :: g4t ++ '-' :: g5,
      ⟨'-' :: (vc :: g4t ++ '-' :: g5), ⟨g3t ++ '-' :: (vc :: g4t ++ '-' :: g5),
      ⟨'5' :: g3t ++ '-' :: (vc :: g4t ++ '-' :: g5),
      ⟨'-' :: ('5' :: g3t ++ '-' :: (vc :: g4t ++ '-' :: g5)),
      ⟨g2 ++ '-' :: ('5' :: g3t ++ '-' :: (vc :: g4t ++ '-' :: g5)),
      ⟨'-' :: (g2 ++ '-' :: ('5' :: g3t ++ '-' :: (vc :: g4t ++ '-' :: g5))),
      ?_, ?_⟩, ?_⟩, ?_⟩, ?_⟩, ?_⟩, ?_⟩, ?_⟩, ?_⟩, ?_⟩, ?_⟩
    · exact (hexRun_eq_some 8 _ _).mpr ⟨g1, h1len, hx1, hsd⟩
    · exact (litRun_eq_some '-' _ _).mpr rfl
    · exact (hexRun_eq_some 4 _ _).mpr ⟨g2, h2len, hx2, rfl⟩
    · exact (litRun_eq_some '-' _ _).mpr rfl
    · exact (litRun_eq_some '5' _ _).mpr rfl
    · exact (hexRun_eq_some 3 _ _).mpr ⟨g3t, hg3tlen, hx3, rfl⟩
    · exact (litRun_eq_some '-' _ _).mpr rfl
    · exact (variantRun_eq_some _ _).mpr ⟨vc, rfl, hvc⟩
    · exact (hexRun_eq_some 3 _ _).mpr ⟨g4t, hg4tlen, hx4, rfl⟩
    · exact (litRun_eq_some '-' _ _).mpr rfl
    · exact (hexRun_eq_some 12 _ _).mpr ⟨g5, h5len, hx5, by simp⟩

/-! ## Helper lemmas: the end-anchored extension suffix test -/

theorem suffix_of_suffix_append {α : Type} (p x y : List α) (h : p <:+ x ++ y)
    (hlen : p.length ≤ y.length) : p <:+ y := by
  obtain ⟨t, ht⟩ := h
  have hlen2 : x.length ≤ t.length := by
    have := congrArg List.length ht
    simp only [List.length_append] at this
    omega
  refine ⟨t.drop x.length, ?_⟩
  have hy : y = (x ++ y).drop x.length := (List.drop_left x y).symm
  rw [hy, ← ht, List.drop_append_eq_append_drop, Nat.sub_eq_zero_of_le hlen2,
    List.drop_zero]

theorem mem_of_long_suffix {α : Type} (p x y : List α) (a : α)
    (h : p <:+ x ++ a :: y) (hlen : y.length < p.length) : a ∈ p := by
  obtain ⟨t, ht⟩ := h
  have hlen2 : t.length ≤ x.length := by
    have := congrArg List.length ht
    simp only [List.length_append, List.length_cons] at this
    omega
  have hp : p = x.drop t.length ++ a :: y := by
    have h1 : p = (t ++ p).drop t.length := (List.drop_left t p).symm
    rw [h1, ht, List.drop_append_eq_append_drop, Nat.sub_eq_zero_of_le hlen2,
      List.drop_zero]
  rw [hp]
  exact List.mem_append.mpr (Or.inr (List.mem_cons_self a y))

/-- The extension check is exactly an end-anchored suffix test on the
lowercased strings. -/
theorem extensionCheck_eq_suffix (ext fname : List Char) :
    extensionCheck ext fname = true ↔
      (ext.map Char.toLower) <:+ (fname.map Char.toLower) := by
  unfold extensionCheck
  exact List.isSuffixOf_iff_suffix

/-- A filename of the shape `base.ext.other` fails the check for `ext`
whenever `ext` is dot-free (true of every canonical extension) and `other`
does not itself end, case-insensitively, with `ext`. -/
theorem extensionCheck_shadowed_false (ext base other : List Char)
    (hnod : ∀ c ∈ ext, Char.toLower c ≠ '.')
    (hsuf : ¬ ((ext.map Char.toLower) <:+ (other.map Char.toLower))) :
    extensionCheck ext (base ++ '.' :: ext ++ '.' :: other) = false := by
  cases hcheck : extensionCheck ext (base ++ '.' :: ext ++ '.' :: other) with
  | false => rfl
  | true =>
    exfalso
    have hs := (extensionCheck_eq_suffix _ _).mp hcheck
    have hdot : Char.toLower '.' = '.' := by decide
    have hW : (base ++ '.' :: ext ++ '.' :: other).map Char.toLower =
        (base.map Char.toLower ++ '.' :: ext.map Char.toLower) ++
          '.' :: other.map Char.toLower := by
      simp [List.map_append, List.map_cons, hdot, List.append_assoc]
    rw [hW] at hs
    by_cases hlen : (ext.map Char.toLower).length ≤ (other.map Char.toLower).length
    · have h1 : (ext.map Char.toLower) <:+ '.' :: other.map Char.toLower := by
        apply suffix_of_suffix_append _ _ _ hs
        simp only [List.length_cons]
        omega
      have h2 : (ext.map Char.toLower) <:+ other.map Char.toLower := by
        have hsplit : ('.' :: other.map Char.toLower) =
            ['.'] ++ other.map Char.toLower := rfl
        rw [hsplit] at h1
        exact suffix_of_suffix_append _ _ _ h1 hlen
      exact hsuf h2
    · push_neg at hlen
      have hmem : '.' ∈ ext.map Char.toLower :=
        mem_of_long_suffix _ _ _ '.' hs hlen
      obtain ⟨c, hc, hceq⟩ := List.mem_map.mp hmem
      exact hnod c hc hceq

/-! ## Claim theorems -/

/-- Claim C1, counterexample.  The claim says a whitelist entry is treated as
a literal string, so `Ok(true)` requires the top-level portion to equal an
entry character-for-character.  The entry `".a.b"` passes the top-level
grammar, yet `validate_url "test.axb" (some [".a.b"])` returns `Ok(true)`
although no decomposition of `"test.axb"` has a top-level portion literally
equal to `".a.b"`: the entry's second dot is unescaped and matches the `x`. -/
theorem claim_C1_counterexample :
    validate_url "test.axb" (some [".a.b"]) = Except.ok true ∧
    literalWhitelistMatch ([".a.b"].map String.data) "test.axb".data = false :=
  ⟨by rfl, by rfl⟩

/-- Claim C1, amended.  For a whitelist whose entries all pass the top-level
grammar AND contain no dot beyond the leading one, whitelist matching is
exactly literal matching: `validate_url u (some wl)` returns `Ok(true)` iff
some decomposition of `u` has its entire top-level portion
character-for-character equal (case-sensitive) to a whitelist entry; in
particular `validate_url "test.ch.com" (some [".ch"])` returns `Ok(false)`. -/
theorem claim_C1_whitelist_literal (whitelist : List String) (u : String)
    (hval : ∀ e ∈ whitelist, topLevelMatch e.data = true)
    (hnod : ∀ e ∈ whitelist, ∀ c ∈ e.data.tail, c ≠ '.') :
    (validate_url u (some whitelist) = Except.ok true ↔
      literalWhitelistMatch (whitelist.map String.data) u.data = true) ∧
    validate_url "test.ch.com" (some [".ch"]) = Except.ok false := by
  refine ⟨?_, by rfl⟩
  cases whitelist with
  | nil =>
    constructor
    · intro h
      have hv : validate_url u (some ([] : List String)) =
          Except.error "The white list is empty." := rfl
      rw [hv] at h
      exact Except.noConfusion h
    · intro h
      exfalso
      obtain ⟨a, b, c, d, _, _, _, hc, _⟩ :=
        (splitSearch_iff (literalWhitelistAlt (([] : List String).map String.data))
          u.data).mp h
      simp [literalWhitelistAlt] at hc
  | cons e0 es =>
    have hok : validateEntries ((e0 :: es).map String.data) =
        Except.ok ((e0 :: es).map String.data) := by
      apply validateEntries_ok
      intro e' he'
      obtain ⟨e, he, rfl⟩ := List.mem_map.mp he'
      exact hval e he
    have hv : validate_url u (some (e0 :: es)) =
        Except.ok (splitSearch (whitelistAlt ((e0 :: es).map String.data)) u.data) := by
      simp only [validate_url]
      rw [if_neg (by simp), hok]
    rw [hv]
    have hcong : whitelistAlt ((e0 :: es).map String.data) =
        literalWhitelistAlt ((e0 :: es).map String.data) := by
      funext t
      apply whitelistAlt_eq_literal
      intro e' he' c hc
      obtain ⟨e, he, rfl⟩ := List.mem_map.mp he'
      exact hnod e he c hc
    unfold literalWhitelistMatch
    rw [hcong]
    constructor
    · intro h
      injection h
    · intro h
      rw [h]

/-- Witness for C1: at whitelist `[".ch"]` and URL `"test.ch"` the amended
theorem produces a literal decomposition. -/
theorem claim_C1_witness :
    literalWhitelistMatch ([".ch"].map String.data) "test.ch".data = true :=
  (claim_C1_whitelist_literal [".ch"] "test.ch" (by decide) (by decide)).1.mp (by rfl)

/-- Claim C2, counterexample.  The claim's own example — a name ending in
`.jpg.png` checked against `png` — DOES satisfy the check (the regex `png$`
only requires a suffix), so `validate_file` classifies the file as a valid
image; likewise a name ending `.gz.tgz` satisfies the check for `gz`. -/
theorem claim_C2_counterexample :
    extensionCheck "png".data "invalid_ext_image.jpg.png".data = true ∧
    validate_file (Except.ok (some (FileKind.mk "png" MatcherType.Image)))
      "invalid_ext_image.jpg.png" true = Except.ok 1 ∧
    extensionCheck "gz".data "archive.gz.tgz".data = true :=
  ⟨by rfl, by rfl, by rfl⟩

/-- Claim C2, amended.  The extension cross-check passes iff the lowercased
filename ends with the lowercased canonical extension (end-anchored suffix
test); a path ending in `<ext>.<other>` fails the check for `<ext>` whenever
`<other>` does not itself end, case-insensitively, in `<ext>` (the canonical
extension being dot-free), so such a file is classified `Invalid`. -/
theorem claim_C2_extension_anchor (kind : FileKind) (base other : List Char)
    (hnod : ∀ c ∈ kind.extension.data, Char.toLower c ≠ '.')
    (hsuf : ¬ ((kind.extension.data.map Char.toLower) <:+ (other.map Char.toLower))) :
    (∀ fname : List Char, extensionCheck kind.extension.data fname = true ↔
      (kind.extension.data.map Char.toLower) <:+ (fname.map Char.toLower)) ∧
    validate_file (Except.ok (some kind))
      (String.mk (base ++ '.' :: kind.extension.data ++ '.' :: other)) true =
      Except.ok 0 := by
  constructor
  · intro fname
    exact extensionCheck_eq_suffix kind.extension.data fname
  · have hfail := extensionCheck_shadowed_false kind.extension.data base other hnod hsuf
    simp only [validate_file]
    simp only [List.cons_append, List.append_assoc] at hfail
    simp [hfail]

/-- Witness for C2: a JPEG named `invalid_ext_image.jpg.png` fails the check
for `jpg` and is classified `Invalid`. -/
theorem claim_C2_witness :
    validate_file (Except.ok (some (FileKind.mk "jpg" MatcherType.Image)))
      (String.mk ("invalid_ext_image".data ++ '.' :: "jpg".data ++ '.' :: "png".data))
      true = Except.ok 0 :=
  (claim_C2_extension_anchor (FileKind.mk "jpg" MatcherType.Image)
    "invalid_ext_image".data "png".data (by decide) (by decide)).2

/-- Claim C3: for every namespace and byte content, validating the candidate
recomputed by the RFC 4122 version-5 derivation always succeeds, and the
comparison is bit-for-bit equality of the recomputed UUID with the
candidate. -/
theorem claim_C3_uuid_roundtrip (ns : Uuid) (file : List Nat) :
    validate_file_uuid ns file (new_v5 ns file) = true ∧
    ∀ u : Uuid, (validate_file_uuid ns file u = true ↔ new_v5 ns file = u) := by
  constructor
  · unfold validate_file_uuid
    exact beq_self_eq_true _
  · intro u
    unfold validate_file_uuid
    exact beq_iff_eq

/-- Witness for C3 at a concrete namespace and content. -/
theorem claim_C3_witness :
    validate_file_uuid (Uuid.mk (List.replicate 16 0)) [1, 2, 3]
      (new_v5 (Uuid.mk (List.replicate 16 0)) [1, 2, 3]) = true :=
  (claim_C3_uuid_roundtrip (Uuid.mk (List.replicate 16 0)) [1, 2, 3]).1

/-- Claim C4: `validate_uuid` accepts exactly the canonical 8-4-4-4-12
hyphenated hexadecimal layout with version nibble `5` and variant nibble in
`{8, 9, a, b}` (case-insensitive); the example UUID is accepted in both
casings, the empty string is rejected, and the function is total. -/
theorem claim_C4_uuid_format (s : String) :
    (validate_uuid s = true ↔ uuidSpecLayout s) ∧
    validate_uuid "c70dc454-1c7d-5c59-8fed-3a321e6a4a49" = true ∧
    validate_uuid "C70DC454-1C7D-5C59-8FED-3A321E6A4A49" = true ∧
    validate_uuid "" = false :=
  ⟨validate_uuid_iff s, by rfl, by rfl, by rfl⟩

/-- Witness for C4: the example UUID has the layout decomposition. -/
theorem claim_C4_witness : uuidSpecLayout "c70dc454-1c7d-5c59-8fed-3a321e6a4a49" :=
  (claim_C4_uuid_format "c70dc454-1c7d-5c59-8fed-3a321e6a4a49").1.mp (by rfl)

/-- Claim C5: in whitelist mode the configuration checks run first and their
outcome does not depend on the URL: an empty whitelist yields the
empty-whitelist error, any entry failing the anchored top-level grammar
yields the invalid-entry error (in particular the whitelist `[""]` for every
URL), and the two error values are distinct descriptive strings. -/
theorem claim_C5_whitelist_errors (x : String) (whitelist : List String) :
    (whitelist = [] →
      validate_url x (some whitelist) = Except.error "The white list is empty.") ∧
    ((∃ e ∈ whitelist, topLevelMatch e.data = false) → whitelist ≠ [] →
      validate_url x (some whitelist) =
        Except.error "Invalid top level domain in white list.") ∧
    validate_url x (some [""]) =
      Except.error "Invalid top level domain in white list." ∧
    "The white list is empty." ≠ "Invalid top level domain in white list." := by
  refine ⟨?_, ?_, by rfl, by decide⟩
  · rintro rfl
    rfl
  · intro hbad hne
    simp only [validate_url]
    have hemp : whitelist.isEmpty = false := by
      cases whitelist with
      | nil => exact absurd rfl hne
      | cons a l => rfl
    rw [if_neg (by simp [hemp])]
    have herr : validateEntries (whitelist.map String.data) =
        Except.error "Invalid top level domain in white list." := by
      apply validateEntries_error
      obtain ⟨e, he, hbad'⟩ := hbad
      exact ⟨e.data, List.mem_map.mpr ⟨e, he, rfl⟩, hbad'⟩
    rw [herr]

/-- Witness for C5 at the whitelist `[""]` and a concrete URL. -/
theorem claim_C5_witness :
    validate_url "https://a.com" (some [""]) =
      Except.error "Invalid top level domain in white list." :=
  (claim_C5_whitelist_errors "https://a.com" [""]).2.1
    ⟨"", by simp, by rfl⟩ (by simp)

/-- Claim C6, counterexample.  The claim allows ARBITRARY characters after a
trailing `/` or `#`, but the `regex` crate's `.` never matches a newline, so
`"test.com/\n"` is in the claimed grammar yet `validate_url` rejects it. -/
theorem claim_C6_counterexample :
    validate_url "test.com/\n" none = Except.ok false ∧
    urlGrammarClaimed "test.com/\n" := by
  refine ⟨by rfl, [], "test".data, ".com".data, "/\n".data, by rfl, Or.inl rfl,
    ⟨by decide, by decide⟩, ⟨"co".data, 'm', by rfl, by decide, by decide, by decide⟩,
    Or.inr ⟨'/', ['\n'], rfl, Or.inl rfl⟩⟩

/-- Claim C6, amended.  Without a whitelist, `validate_url` returns `Ok(true)`
exactly on the strings of the claimed grammar with the trailing part
restricted to newline-free characters after the `/` or `#`; in particular
`validate_url "https://test.com" none = Ok(true)`. -/
theorem claim_C6_url_grammar (s : String) :
    (validate_url s none = Except.ok true ↔ urlGrammarAmended s) ∧
    validate_url "https://test.com" none = Except.ok true :=
  ⟨validate_url_none_iff s, by rfl⟩

/-- Witness for C6: the grammar decomposition of a concrete accepted URL. -/
theorem claim_C6_witness : urlGrammarAmended "test.org" :=
  (claim_C6_url_grammar "test.org").1.mp (by rfl)

/-- Claim C7: with `check_extension` set, a failed extension check yields the
non-error `Invalid` classification (`Ok(0)`), while the unknown-signature
case yields an error instead. -/
theorem claim_C7_wrong_extension_invalid (kind : FileKind) (filename : String)
    (h : extensionCheck kind.extension.data filename.data = false) :
    validate_file (Except.ok (some kind)) filename true = Except.ok 0 ∧
    ∀ fn : String, validate_file (Except.ok none) fn true =
      Except.error "File type is unknown." := by
  constructor
  · simp only [validate_file]
    rw [h]
    rfl
  · intro fn
    rfl

/-- Witness for C7: a PNG signature against a `.jpg` name. -/
theorem claim_C7_witness :
    validate_file (Except.ok (some (FileKind.mk "png" MatcherType.Image)))
      "x.jpg" true = Except.ok 0 :=
  (claim_C7_wrong_extension_invalid (FileKind.mk "png" MatcherType.Image)
    "x.jpg" (by rfl)).1

/-- Claim C8: `validate_file` errors exactly on a propagated I/O failure or
on an unrecognized signature, and on a recognized signature it returns
exactly one of the classifications 0, 1 or 2. -/
theorem claim_C8_error_taxonomy (sniffed : Except String (Option FileKind))
    (filename : String) (checkExtension : Bool) :
    (∀ e, sniffed = Except.error e →
      validate_file sniffed filename checkExtension = Except.error e) ∧
    (sniffed = Except.ok none →
      validate_file sniffed filename checkExtension =
        Except.error "File type is unknown.") ∧
    (∀ e, validate_file sniffed filename checkExtension = Except.error e →
      sniffed = Except.error e ∨
        (sniffed = Except.ok none ∧ e = "File type is unknown.")) ∧
    (∀ k, sniffed = Except.ok (some k) →
      validate_file sniffed filename checkExtension = Except.ok 0 ∨
      validate_file sniffed filename checkExtension = Except.ok 1 ∨
      validate_file sniffed filename checkExtension = Except.ok 2) := by
  refine ⟨?_, ?_, ?_, ?_⟩
  · rintro e rfl
    rfl
  · rintro rfl
    rfl
  · intro e h
    cases sniffed with
    | error e' =>
      simp only [validate_file] at h
      injection h with h'
      exact Or.inl (by rw [h'])
    | ok v =>
      cases v with
      | none =>
        simp only [validate_file] at h
        injection h with h'
        exact Or.inr ⟨rfl, h'.symm⟩
      | some k =>
        exfalso
        simp only [validate_file] at h
        by_cases hc :
            (checkExtension && !extensionCheck k.extension.data filename.data) = true
        · rw [if_pos hc] at h
          exact Except.noConfusion h
        · rw [if_neg hc] at h
          revert h
          cases k.matcherType <;> intro h <;> exact Except.noConfusion h
  · rintro k rfl
    simp only [validate_file]
    by_cases hc :
        (checkExtension && !extensionCheck k.extension.data filename.data) = true
    · rw [if_pos hc]
      exact Or.inl rfl
    · rw [if_neg hc]
      cases hmt : k.matcherType
      all_goals first
        | exact Or.inr (Or.inl rfl)
        | exact Or.inr (Or.inr rfl)
        | exact Or.inl rfl

/-- Witness for C8: a recognized video signature classifies as 0, 1 or 2. -/
theorem claim_C8_witness :
    validate_file (Except.ok (some (FileKind.mk "avi" MatcherType.Video)))
      "v.avi" false = Except.ok 0 ∨
    validate_file (Except.ok (some (FileKind.mk "avi" MatcherType.Video)))
      "v.avi" false = Except.ok 1 ∨
    validate_file (Except.ok (some (FileKind.mk "avi" MatcherType.Video)))
      "v.avi" false = Except.ok 2 :=
  (claim_C8_error_taxonomy (Except.ok (some (FileKind.mk "avi" MatcherType.Video)))
    "v.avi" false).2.2.2 (FileKind.mk "avi" MatcherType.Video) rfl

/-- Claim C9: a recognized signature whose category is neither image nor
video yields `Ok(0)` for both values of `check_extension`: passing the
extension check never upgrades such a file. -/
theorem claim_C9_non_media_invalid (kind : FileKind) (filename : String)
    (checkExtension : Bool) (h1 : kind.matcherType ≠ MatcherType.Image)
    (h2 : kind.matcherType ≠ MatcherType.Video) :
    validate_file (Except.ok (some kind)) filename checkExtension = Except.ok 0 := by
  obtain ⟨ext, mt⟩ := kind
  cases mt <;>
    first
      | exact absurd rfl h1
      | exact absurd rfl h2
      | (simp only [validate_file]; split <;> rfl)

/-- Witness for C9: a PDF signature with the extension check on. -/
theorem claim_C9_witness :
    validate_file (Except.ok (some (FileKind.mk "pdf" MatcherType.Archive)))
      "doc.pdf" true = Except.ok 0 :=
  claim_C9_non_media_invalid (FileKind.mk "pdf" MatcherType.Archive) "doc.pdf" true
    (by decide) (by decide)

/-- Claim C10: the host group only requires one character drawn from
alphanumerics, dots and hyphens, so hosts with no alphanumeric at all are
accepted: `"..com"` and `"-.com"` both validate. -/
theorem claim_C10_degenerate_hosts :
    validate_url "..com" none = Except.ok true ∧
    validate_url "-.com" none = Except.ok true :=
  ⟨by rfl, by rfl⟩

end SecLab
